import Mathlib

/-!
Shallow embedding of the ShellTM32 interactive shell (src/shell) and proofs
about its ring-buffered serial transport, console line editor, command
dispatcher and argument parser.

Strings are modelled as lists of byte values (`List Nat`), machine integers
as `Nat`/`Int` with explicit wrapping where the C code relies on it.
-/

namespace ShellTM32

/-! ### Error codes (shell.h) -/

def SHELL_ERR_ARG : Int := -1
def SHELL_ERR_RESOURCE : Int := -2
def SHELL_ERR_STATE : Int := -3
def SHELL_ERR_BAD_CMD : Int := -4
def SHELL_ERR_BUF_OVERRUN : Int := -5
def SHELL_ERR_BAD_INSTANCE : Int := -6

/-! ### Ring buffer model (ttys.c)

Each ttys ring is a byte array with a put index and a get index.  `upd` is
array assignment.  The four code sites (ttys_putc, ttys_getc, and the RX/TX
branches of ttys_interrupt) all manipulate such a ring; the operations below
are their ring-buffer cores with the capacity `N` as a parameter
(`TTYS_TX_BUF_SIZE = 1024` for TX, `TTYS_RX_BUF_SIZE = 80` for RX).
-/

def TTYS_RX_BUF_SIZE : Nat := 80
def TTYS_TX_BUF_SIZE : Nat := 1024
def TTYS_NUM_INSTANCES : Nat := 3

structure RingState where
  buf : Nat → Nat
  put : Nat
  get : Nat

def upd (f : Nat → Nat) (i v : Nat) : Nat → Nat :=
  fun j => if j = i then v else f j

/-- Producer step of the TX ring as in `ttys_putc` (after the instance
check): compute the wrapped next put index, fail with `SHELL_ERR_BUF_OVERRUN`
if it equals the get index, otherwise store the byte and advance. -/
def ring_put (N : Nat) (s : RingState) (c : Nat) : Int × RingState :=
  let next := if s.put + 1 ≥ N then 0 else s.put + 1
  if next = s.get then (SHELL_ERR_BUF_OVERRUN, s)
  else (0, ⟨upd s.buf s.put c, next, s.get⟩)

/-- Consumer step of a ring as in `ttys_getc` and the TX branch of
`ttys_interrupt`: nothing when put = get, otherwise read the byte at the get
index and advance it with wraparound. -/
def ring_pop (N : Nat) (s : RingState) : Option Nat × RingState :=
  if s.get = s.put then (none, s)
  else
    let c := s.buf s.get
    let g := if s.get + 1 ≥ N then 0 else s.get + 1
    (some c, ⟨s.buf, s.put, g⟩)

/-- RX producer step of `ttys_interrupt`, verbatim from the code: the
fullness check is `put + 1 != get` with NO wraparound; on "not full" the byte
is stored and put advances (with wraparound), otherwise `Error_Handler()` is
invoked (returned boolean). -/
def ring_rx_isr_put (N : Nat) (s : RingState) (c : Nat) : Bool × RingState :=
  if s.put + 1 ≠ s.get then
    let p := if s.put + 1 ≥ N then 0 else s.put + 1
    (false, ⟨upd s.buf s.put c, p, s.get⟩)
  else
    (true, s)

/-- Number of live bytes of a ring. -/
def ring_size (N : Nat) (s : RingState) : Nat :=
  (s.put + N - s.get) % N

/-- Live bytes of a ring, from the get index to the put index. -/
def ring_content (N : Nat) (s : RingState) : List Nat :=
  (List.range (ring_size N s)).map (fun i => s.buf ((s.get + i) % N))

def ring_valid (N : Nat) (s : RingState) : Prop :=
  s.put < N ∧ s.get < N

/-- Zeroed ring, as produced by the `memset` in `ttys_init`. -/
def ring_zero : RingState := ⟨fun _ => 0, 0, 0⟩

/-- Push a whole list of bytes with `ring_put`, failing if any push fails. -/
def ring_put_list (N : Nat) (s : RingState) : List Nat → Option RingState
  | [] => some s
  | c :: cs =>
    let r := ring_put N s c
    if r.1 = 0 then ring_put_list N r.2 cs else none

/-- Pop `k` bytes with `ring_pop`, collecting them in order; stops early on
an empty ring. -/
def ring_pop_list (N : Nat) : Nat → RingState → List Nat × RingState
  | 0, s => ([], s)
  | k + 1, s =>
    match (ring_pop N s).1 with
    | none => ([], (ring_pop N s).2)
    | some c =>
      let t := ring_pop_list N k (ring_pop N s).2
      (c :: t.1, t.2)

/-! ### Transport instances (ttys.c) -/

structure TtysState where
  tx : RingState
  rx : RingState

/-- Update the per-instance state table at one instance id. -/
def upd_ttys (sts : Nat → TtysState) (id : Nat) (v : TtysState) :
    Nat → TtysState :=
  fun j => if j = id then v else sts j

/-- Model of `ttys_putc`: instance check, then the TX-ring producer step.
On a full ring it returns `SHELL_ERR_BUF_OVERRUN` before touching any state. -/
def ttys_putc (sts : Nat → TtysState) (id : Nat) (c : Nat) :
    Int × (Nat → TtysState) :=
  if TTYS_NUM_INSTANCES ≤ id then (SHELL_ERR_BAD_INSTANCE, sts)
  else
    let st := sts id
    let next := if st.tx.put + 1 ≥ TTYS_TX_BUF_SIZE then 0 else st.tx.put + 1
    if next = st.tx.get then (SHELL_ERR_BUF_OVERRUN, sts)
    else
      (0, upd_ttys sts id
        { st with tx := ⟨upd st.tx.buf st.tx.put c, next, st.tx.get⟩ })

/-- Model of `ttys_getc`: instance check, then the RX-ring consumer step.
Returns the number of characters delivered (0 or 1) and the character. -/
def ttys_getc (sts : Nat → TtysState) (id : Nat) :
    Int × Option Nat × (Nat → TtysState) :=
  if TTYS_NUM_INSTANCES ≤ id then (SHELL_ERR_BAD_INSTANCE, none, sts)
  else
    let st := sts id
    if st.rx.get = st.rx.put then (0, none, sts)
    else
      let c := st.rx.buf st.rx.get
      let g := if st.rx.get + 1 ≥ TTYS_RX_BUF_SIZE then 0 else st.rx.get + 1
      (1, some c, upd_ttys sts id { st with rx := ⟨st.rx.buf, st.rx.put, g⟩ })

/-- Model of the RXNE branch of `ttys_interrupt`: the received byte is pushed
with the (wrap-less) fullness check of the code; the boolean reports whether
`Error_Handler()` was invoked. -/
def ttys_interrupt_rx (sts : Nat → TtysState) (id : Nat) (c : Nat) :
    Bool × (Nat → TtysState) :=
  let st := sts id
  let r := ring_rx_isr_put TTYS_RX_BUF_SIZE st.rx c
  (r.1, upd_ttys sts id { st with rx := r.2 })

/-- Model of the TXE branch of `ttys_interrupt`: pop a byte from the TX ring
and write it to the data register (returned), or report the ring empty. -/
def ttys_interrupt_tx (sts : Nat → TtysState) (id : Nat) :
    Option Nat × (Nat → TtysState) :=
  let st := sts id
  let r := ring_pop TTYS_TX_BUF_SIZE st.tx
  (r.1, upd_ttys sts id { st with tx := r.2 })

/-- Concrete instance table whose RX ring is full at the wraparound
boundary: put = 79, get = 0 with TTYS_RX_BUF_SIZE = 80. -/
def c2_sts : Nat → TtysState :=
  fun _ => ⟨ring_zero, ⟨fun _ => 0, 79, 0⟩⟩

/-- Concrete instance table whose TX ring is full at the wraparound
boundary: put = 1023, get = 0 with TTYS_TX_BUF_SIZE = 1024. -/
def c3_sts : Nat → TtysState :=
  fun _ => ⟨⟨fun _ => 0, 1023, 0⟩, ring_zero⟩

/-! ### shell_init (init.c)

The C code stores the `int32_t` result of `ttys_init` in a `uint32_t`
variable and then tests `result < 0`, an always-false unsigned comparison.
`u32_of_int` is the C conversion of a signed value to `uint32_t`.
-/

/-- Return value of `ttys_init` (with the non-null config built by
`shell_init`): `SHELL_ERR_BAD_INSTANCE` for an out-of-range id, else 0. -/
def ttys_init_ret (id : Nat) : Int :=
  if TTYS_NUM_INSTANCES ≤ id then SHELL_ERR_BAD_INSTANCE else 0

def u32_of_int (i : Int) : Nat :=
  (i % (2 ^ 32 : Int)).toNat

/-- Model of `shell_init`: the result of `ttys_init` lands in a `uint32_t`
local, so the `result < 0` test is the always-false unsigned comparison. -/
def shell_init (id : Nat) : Nat :=
  let result : Nat := u32_of_int (ttys_init_ret id)
  if result < 0 then result else 0

/-! ### Character classification (ctype, as used by the code) -/

/-- Byte-level `isspace`: space, tab, newline, vertical tab, form feed,
carriage return. -/
def is_space (c : Nat) : Bool :=
  c == 32 || c == 9 || c == 10 || c == 11 || c == 12 || c == 13

/-- Byte-level `isprint`: the printable ASCII range. -/
def is_print (c : Nat) : Bool :=
  decide (32 ≤ c) && decide (c ≤ 126)

/-- Byte-level `tolower`, as used by `strcasecmp`. -/
def to_lower (c : Nat) : Nat :=
  if 65 ≤ c ∧ c ≤ 90 then c + 32 else c

/-- Case-insensitive string equality (`strcasecmp(a,b) == 0`). -/
def strcaseeq (a b : List Nat) : Bool :=
  a.map to_lower == b.map to_lower

/-- Byte list of a string literal, for concrete inputs. -/
def bytes (s : String) : List Nat :=
  s.data.map (fun c => c.toNat)

/-! ### Console line editor (console.c) -/

def CONSOLE_CMD_BFR_SIZE : Nat := 80
def LOG_TOGGLE_CHAR : Nat := 12

structure ConsoleState where
  cmd_bfr : Nat → Nat
  num_cmd_bfr_chars : Nat
  start_of_line : Bool
  log_active : Bool

/-- Observable console output events. -/
inductive ConsoleEv where
  | echo (c : Nat)
  | bell
  | erase
  | newline
  | dispatch (line : List Nat)
  | logmsg (active : Bool)
  deriving DecidableEq

/-- Completed line handed to `cmd_execute`: the buffer bytes before the
terminator. -/
def console_line (s : ConsoleState) : List Nat :=
  (List.range s.num_cmd_bfr_chars).map s.cmd_bfr

/-- Per-byte processing of the `console_run` input loop: newline dispatches
the line, backspace/delete erases one character when the buffer is
non-empty, the log toggle character flips the logging flag, a printable
character is appended and echoed when the fill count is below
`CONSOLE_CMD_BFR_SIZE - 1` and otherwise dropped with a bell. -/
def console_step (s : ConsoleState) (c : Nat) : ConsoleState × List ConsoleEv :=
  if c = 10 ∨ c = 13 then
    ({ s with cmd_bfr := upd s.cmd_bfr s.num_cmd_bfr_chars 0,
              num_cmd_bfr_chars := 0, start_of_line := true },
     [.newline, .dispatch (console_line s)])
  else if c = 8 ∨ c = 127 then
    if 0 < s.num_cmd_bfr_chars then
      ({ s with num_cmd_bfr_chars := s.num_cmd_bfr_chars - 1 }, [.erase])
    else (s, [])
  else if c = LOG_TOGGLE_CHAR then
    ({ s with log_active := !s.log_active }, [.logmsg (!s.log_active)])
  else if is_print c then
    if s.num_cmd_bfr_chars < CONSOLE_CMD_BFR_SIZE - 1 then
      ({ s with cmd_bfr := upd s.cmd_bfr s.num_cmd_bfr_chars c,
                num_cmd_bfr_chars := s.num_cmd_bfr_chars + 1 }, [.echo c])
    else (s, [.bell])
  else (s, [])

/-- Drain a sequence of input bytes through `console_step`, as one
`console_run` poll does for all currently available bytes. -/
def console_run_bytes (s : ConsoleState) : List Nat → ConsoleState
  | [] => s
  | c :: cs => console_run_bytes (console_step s c).1 cs

/-- Freshly initialized console state (`console_init`): zeroed buffer and
fill count, start-of-line pending, logging active. -/
def c9_s0 : ConsoleState := ⟨fun _ => 0, 0, true, true⟩

/-! ### Command dispatcher (cmd.c) -/

def MAX_CMD_TOKENS : Nat := 10
def CMD_MAX_CLIENTS : Nat := 10

structure CmdInfo where
  name : List Nat
  func : Nat → List (List Nat) → Int

structure ClientInfo where
  name : List Nat
  cmds : List CmdInfo
  logLevel : Option Int

/-- Record of one handler invocation performed by `cmd_execute`. -/
structure HandlerCall where
  client : List Nat
  cmd : List Nat
  argc : Nat
  argv : List (List Nat)
  result : Int

/-- Result of `cmd_execute`: return value, client registrations after the
call (log levels may change), handler invocations performed. -/
structure ExecOut where
  ret : Int
  clients : List ClientInfo
  calls : List HandlerCall

/-- Whitespace tokenizer loop of `cmd_execute`: skip whitespace, record a
token up to the next whitespace, repeat. The fuel argument (instantiated
with the line length, which bounds the number of loop iterations) makes the
recursion structural. -/
def tok_go : Nat → List Nat → List (List Nat)
  | 0, _ => []
  | _, [] => []
  | n + 1, c :: cs =>
    if is_space c then tok_go n cs
    else
      (c :: cs.takeWhile (fun d => !is_space d)) ::
        tok_go n (cs.dropWhile (fun d => !is_space d))

/-- In-place whitespace tokenizer of `cmd_execute`. -/
def cmd_tokenize (l : List Nat) : List (List Nat) :=
  tok_go l.length l

def log_level_names : List (List Nat) :=
  [bytes "off", bytes "error", bytes "warning", bytes "info",
   bytes "debug", bytes "trace"]

/-- Model of `log_level_int`: index of the first case-insensitive match
among the level names, or -1. -/
def log_level_int (name : List Nat) : Int :=
  match log_level_names.findIdx? (fun n => strcaseeq name n) with
  | some i => (i : Int)
  | none => -1

/-- Wildcard section of `cmd_execute` (first token is "*"). -/
def cmd_wildcard (clients : List ClientInfo) (toks : List (List Nat)) :
    ExecOut :=
  if toks.length < 2 then ⟨SHELL_ERR_BAD_CMD, clients, []⟩
  else if strcaseeq (toks.getD 1 []) (bytes "log") then
    if toks.length = 3 then
      let lvl := log_level_int (toks.getD 2 [])
      if lvl < 0 then ⟨SHELL_ERR_ARG, clients, []⟩
      else
        ⟨0,
         clients.map (fun ci =>
           if ci.logLevel.isSome then { ci with logLevel := some lvl } else ci),
         []⟩
    else if 3 < toks.length then ⟨SHELL_ERR_ARG, clients, []⟩
    else ⟨0, clients, []⟩
  else ⟨0, clients, []⟩

/-- First command of a client whose name case-insensitively matches. -/
def find_cmd (cmds : List CmdInfo) (t1 : List Nat) : Option CmdInfo :=
  cmds.find? (fun k => strcaseeq t1 k.name)

/-- Per-client section of `cmd_execute`, once the client has matched:
built-in help, built-in log get/set, otherwise search the command list and
invoke the handler (its status is discarded; the code returns 0). -/
def cmd_client_dispatch (ci : ClientInfo) (toks : List (List Nat)) :
    Int × ClientInfo × List HandlerCall :=
  let t1 := toks.getD 1 []
  if strcaseeq t1 (bytes "help") || strcaseeq t1 (bytes "?") then (0, ci, [])
  else if strcaseeq t1 (bytes "log") then
    match ci.logLevel with
    | some _ =>
      if toks.length < 3 then (0, ci, [])
      else
        let lvl := log_level_int (toks.getD 2 [])
        if lvl < 0 then (SHELL_ERR_ARG, ci, [])
        else (0, { ci with logLevel := some lvl }, [])
    | none => (0, ci, [])
  else
    match find_cmd ci.cmds t1 with
    | some k =>
      (0, ci, [⟨ci.name, k.name, toks.length, toks, k.func toks.length toks⟩])
    | none => (SHELL_ERR_BAD_CMD, ci, [])

/-- Client search loop of `cmd_execute`: first client whose name
case-insensitively matches the first token handles the line; no match is
`SHELL_ERR_BAD_CMD`. -/
def cmd_find_client : List ClientInfo → List (List Nat) → ExecOut
  | [], _ => ⟨SHELL_ERR_BAD_CMD, [], []⟩
  | ci :: rest, toks =>
    if strcaseeq (toks.getD 0 []) ci.name then
      let r := cmd_client_dispatch ci toks
      ⟨r.1, r.2.1 :: rest, r.2.2⟩
    else
      let r := cmd_find_client rest toks
      ⟨r.ret, ci :: r.clients, r.calls⟩

/-- Dispatch of `cmd_execute` on the token list: more than
`MAX_CMD_TOKENS` tokens is `SHELL_ERR_BAD_CMD`, an empty token list is a
no-op success, then wildcard, global help, or client dispatch. -/
def cmd_execute_toks (clients : List ClientInfo) (toks : List (List Nat)) :
    ExecOut :=
  if MAX_CMD_TOKENS < toks.length then ⟨SHELL_ERR_BAD_CMD, clients, []⟩
  else if toks.length = 0 then ⟨0, clients, []⟩
  else if toks.getD 0 [] == bytes "*" then cmd_wildcard clients toks
  else if strcaseeq (toks.getD 0 []) (bytes "help") ||
          strcaseeq (toks.getD 0 []) (bytes "?") then ⟨0, clients, []⟩
  else cmd_find_client clients toks

/-- Model of `cmd_execute`: tokenize the line, then dispatch. -/
def cmd_execute (clients : List ClientInfo) (line : List Nat) : ExecOut :=
  cmd_execute_toks clients (cmd_tokenize line)

/-- Model of `cmd_register` over the `CMD_MAX_CLIENTS` registry slots: the
first slot that is empty or holds a case-insensitive name match receives the
registration; with no such slot the registry is unchanged and the result is
`SHELL_ERR_RESOURCE`. -/
def cmd_register : List (Option ClientInfo) → ClientInfo →
    Int × List (Option ClientInfo)
  | [], _ => (SHELL_ERR_RESOURCE, [])
  | s :: rest, ci =>
    match s with
    | none => (0, some ci :: rest)
    | some c =>
      if strcaseeq c.name ci.name then (0, some ci :: rest)
      else
        let r := cmd_register rest ci
        (r.1, s :: r.2)

/-- Handler returning a nonzero status, to observe whether cmd_execute
propagates handler status codes. -/
def c1_handler : Nat → List (List Nat) → Int := fun _ _ => 7

/-- Registry with one client "tmr" owning one command "status" whose
handler returns 7. -/
def c1_clients : List ClientInfo :=
  [⟨bytes "tmr", [⟨bytes "status", c1_handler⟩], none⟩]

/-- Sample client named "tmr" for the registration example. -/
def tmr_client : ClientInfo := ⟨bytes "tmr", [], none⟩

/-- Sample client named "TMR" for the registration example. -/
def tmr_upper_client : ClientInfo := ⟨bytes "TMR", [], none⟩

/-- Empty registry: all CMD_MAX_CLIENTS slots free. -/
def empty_registry : List (Option ClientInfo) :=
  List.replicate CMD_MAX_CLIENTS none

/-- Client with a given name and no commands, for registry examples. -/
def named_client (s : String) : ClientInfo := ⟨bytes s, [], none⟩

/-- Registry with all ten slots occupied by distinct names. -/
def full_registry : List (Option ClientInfo) :=
  [some (named_client "c0"), some (named_client "c1"),
   some (named_client "c2"), some (named_client "c3"),
   some (named_client "c4"), some (named_client "c5"),
   some (named_client "c6"), some (named_client "c7"),
   some (named_client "c8"), some (named_client "c9")]

/-! ### Argument parser (cmd_parse_args, cmd.c) with strtol/strtoul models -/

def oct_digit (c : Nat) : Option Nat :=
  if 48 ≤ c ∧ c ≤ 55 then some (c - 48) else none

def dec_digit (c : Nat) : Option Nat :=
  if 48 ≤ c ∧ c ≤ 57 then some (c - 48) else none

def hex_digit (c : Nat) : Option Nat :=
  if 48 ≤ c ∧ c ≤ 57 then some (c - 48)
  else if 97 ≤ c ∧ c ≤ 102 then some (c - 87)
  else if 65 ≤ c ∧ c ≤ 70 then some (c - 55)
  else none

/-- Value of a digit run in the given base. -/
def digits_val (f : Nat → Option Nat) (b : Nat) (ds : List Nat) : Nat :=
  ds.foldl (fun a c => a * b + ((f c).getD 0)) 0

/-- Consume a maximal run of digits; `none` when no digit is present. -/
def run_digits (f : Nat → Option Nat) (b : Nat) (l : List Nat) :
    Option (Nat × List Nat) :=
  let ds := l.takeWhile (fun c => (f c).isSome)
  if ds.isEmpty then none
  else some (digits_val f b ds, l.dropWhile (fun c => (f c).isSome))

/-- Magnitude part of `strtol`/`strtoul` after sign handling, for base 0
(decimal, leading 0 octal, leading 0x hex) and base 16 (optional 0x). A
"0x" not followed by a hex digit yields the subject sequence "0". -/
def num_parse (base : Nat) (l : List Nat) : Option (Nat × List Nat) :=
  match l with
  | 48 :: x :: rest =>
    if x = 120 ∨ x = 88 then
      match run_digits hex_digit 16 rest with
      | some r => some r
      | none => some (0, x :: rest)
    else if base = 0 then
      run_digits oct_digit 8 (48 :: x :: rest)
    else
      run_digits hex_digit 16 (48 :: x :: rest)
  | 48 :: [] => some (0, [])
  | _ =>
    if base = 0 then run_digits dec_digit 10 l
    else run_digits hex_digit 16 l

/-- Model of `strtol(input, &endptr, base)` for the bases the code uses
(0 and 16): skip whitespace, optional sign, then the magnitude; the second
component is the remainder at `endptr` (the whole input when no conversion
is performed). Overflow clamping is not modelled; the parsed values in the
claims are small. -/
def strtol_model (input : List Nat) (base : Nat) : Int × List Nat :=
  let l1 := input.dropWhile is_space
  match l1 with
  | 45 :: t =>
    match num_parse base t with
    | some (v, rest) => (-(v : Int), rest)
    | none => (0, input)
  | 43 :: t =>
    match num_parse base t with
    | some (v, rest) => ((v : Int), rest)
    | none => (0, input)
  | _ =>
    match num_parse base l1 with
    | some (v, rest) => ((v : Int), rest)
    | none => (0, input)

/-- Parsed argument value (struct cmd_arg_val). -/
inductive ArgVal where
  | iv (v : Int)
  | uv (v : Int)
  | pv (v : Int)
  | sv (s : List Nat)
  deriving DecidableEq

/-- Loop of `cmd_parse_args` over the format string: the remaining format,
the remaining tokens, the `opt_args` flag, the count parsed so far and the
values written out. Mirrors the C control flow: brackets first, then the
tokens-exhausted check, then the empty-token check, then the typed
conversions; `opt_args` is cleared after every parsed field. -/
def cpa_go : List Char → List (List Nat) → Bool → Nat → List ArgVal →
    Int × List ArgVal
  | [], argv, _, cnt, vals =>
    if 0 < argv.length then (SHELL_ERR_BAD_CMD, vals) else ((cnt : Int), vals)
  | f :: fmt, argv, opt, cnt, vals =>
    if f = '[' then cpa_go fmt argv true cnt vals
    else if f = ']' then cpa_go fmt argv opt cnt vals
    else
      match argv with
      | [] => if opt then ((cnt : Int), vals) else (SHELL_ERR_BAD_CMD, vals)
      | a :: argv =>
        if a = [] then (SHELL_ERR_BAD_CMD, vals)
        else if f = 'i' then
          let r := strtol_model a 0
          if r.2 = [] then
            cpa_go fmt argv false (cnt + 1) (vals ++ [ArgVal.iv r.1])
          else (SHELL_ERR_ARG, vals)
        else if f = 'u' then
          let r := strtol_model a 0
          if r.2 = [] then
            cpa_go fmt argv false (cnt + 1) (vals ++ [ArgVal.uv r.1])
          else (SHELL_ERR_ARG, vals)
        else if f = 'p' then
          let r := strtol_model a 16
          if r.2 = [] then
            cpa_go fmt argv false (cnt + 1) (vals ++ [ArgVal.pv r.1])
          else (SHELL_ERR_ARG, vals)
        else if f = 's' then
          cpa_go fmt argv false (cnt + 1) (vals ++ [ArgVal.sv a])
        else (SHELL_ERR_ARG, vals)

/-- Model of `cmd_parse_args(argc, argv, fmt, arg_vals)`. -/
def cmd_parse_args (argv : List (List Nat)) (fmt : List Char) :
    Int × List ArgVal :=
  cpa_go fmt argv false 0 []

/-- Single-token conversion for one format field, for stating parser
lemmas: the value produced when the code accepts the token for that field. -/
def parse_tok (f : Char) (a : List Nat) : Option ArgVal :=
  if a = [] then none
  else if f = 'i' then
    let r := strtol_model a 0
    if r.2 = [] then some (ArgVal.iv r.1) else none
  else if f = 'u' then
    let r := strtol_model a 0
    if r.2 = [] then some (ArgVal.uv r.1) else none
  else if f = 'p' then
    let r := strtol_model a 16
    if r.2 = [] then some (ArgVal.pv r.1) else none
  else if f = 's' then some (ArgVal.sv a)
  else none

def is_bracket (c : Char) : Bool :=
  c = '[' || c = ']'

/-- Number of typed fields of a format string. -/
def fmt_fields (fmt : List Char) : Nat :=
  (fmt.filter (fun c => !is_bracket c)).length

/-- Parse a token list against the successive typed fields of a format,
returning the values and the format remainder after the last consumed
field. -/
def parse_fields (fmt : List Char) : List (List Nat) →
    Option (List ArgVal × List Char)
  | [] => some ([], fmt)
  | a :: ts =>
    match fmt.dropWhile is_bracket with
    | [] => none
    | f :: fmt' =>
      match parse_tok f a with
      | some v =>
        match parse_fields fmt' ts with
        | some (vs, r) => some (v :: vs, r)
        | none => none
      | none => none

/-! ### Helper lemmas -/

theorem upd_self (f : Nat → Nat) (i v : Nat) : upd f i v i = v := by
  simp [upd]

theorem upd_other (f : Nat → Nat) (i v j : Nat) (h : j ≠ i) :
    upd f i v j = f j := by
  simp [upd, h]

theorem upd_ttys_self (sts : Nat → TtysState) (id : Nat) (v : TtysState) :
    upd_ttys sts id v id = v := by
  simp [upd_ttys]

theorem upd_ttys_other (sts : Nat → TtysState) (id : Nat) (v : TtysState)
    (k : Nat) (h : k ≠ id) : upd_ttys sts id v k = sts k := by
  simp [upd_ttys, h]

theorem wrap_succ (p N : Nat) (h : p < N) :
    (if p + 1 ≥ N then 0 else p + 1) = (p + 1) % N := by
  by_cases h1 : p + 1 ≥ N
  · have h2 : p + 1 = N := by omega
    simp [h1, h2]
  · rw [if_neg h1, Nat.mod_eq_of_lt (by omega)]

/-! ### Claim theorems -/

/-- C10: shell_init returns 0 for every ttys instance id, including
out-of-range ids for which ttys_init fails with BadInstance (-6): the result
of ttys_init lands in an unsigned 32-bit variable, so the negative-result
check never triggers and initialization failures are silently swallowed. -/
theorem shell_init_swallows_ttys_failure :
    (∀ id : Nat, shell_init id = 0)
    ∧ ttys_init_ret 3 = SHELL_ERR_BAD_INSTANCE
    ∧ shell_init 3 = 0 := by
  refine ⟨fun id => ?_, by decide, by decide⟩
  simp [shell_init]

/-- C2 (code bug witness): with the RX ring full at the wraparound boundary
(put = 79, get = 0, so (put+1) mod 80 = get), the interrupt RX producer of
`ttys_interrupt` does not drop the byte or invoke the fatal handler: its
fullness check omits the wraparound, so it stores the byte, wraps the put
index onto the get index, and leaves a ring that reads as empty (the 79
buffered bytes are lost). -/
theorem ttys_interrupt_rx_overrun_at_wrap :
    ((c2_sts 0).rx.put + 1) % TTYS_RX_BUF_SIZE = (c2_sts 0).rx.get
    ∧ ring_size TTYS_RX_BUF_SIZE (c2_sts 0).rx = TTYS_RX_BUF_SIZE - 1
    ∧ (ttys_interrupt_rx c2_sts 0 42).1 = false
    ∧ ((ttys_interrupt_rx c2_sts 0 42).2 0).rx.buf 79 = 42
    ∧ ((ttys_interrupt_rx c2_sts 0 42).2 0).rx.put = 0
    ∧ ((ttys_interrupt_rx c2_sts 0 42).2 0).rx.get = 0
    ∧ ring_size TTYS_RX_BUF_SIZE ((ttys_interrupt_rx c2_sts 0 42).2 0).rx
        = 0 := by
  decide

/-- C3: for a valid transport instance, when the TX ring is full
((put+1) mod TTYS_TX_BUF_SIZE = get) `ttys_putc` returns
SHELL_ERR_BUF_OVERRUN and leaves the entire transport state unchanged; when
it is not full, it stores the byte at the put index, advances the put index
with wraparound, and returns 0, leaving everything else unchanged. -/
theorem ttys_putc_overrun_or_store (sts : Nat → TtysState) (id : Nat)
    (c : Nat) (hid : id < TTYS_NUM_INSTANCES)
    (hput : (sts id).tx.put < TTYS_TX_BUF_SIZE) :
    (((sts id).tx.put + 1) % TTYS_TX_BUF_SIZE = (sts id).tx.get →
      ttys_putc sts id c = (SHELL_ERR_BUF_OVERRUN, sts))
    ∧ (((sts id).tx.put + 1) % TTYS_TX_BUF_SIZE ≠ (sts id).tx.get →
      (ttys_putc sts id c).1 = 0
      ∧ ((ttys_putc sts id c).2 id).tx.put
          = ((sts id).tx.put + 1) % TTYS_TX_BUF_SIZE
      ∧ ((ttys_putc sts id c).2 id).tx.get = (sts id).tx.get
      ∧ ((ttys_putc sts id c).2 id).tx.buf (sts id).tx.put = c
      ∧ (∀ j, j ≠ (sts id).tx.put →
          ((ttys_putc sts id c).2 id).tx.buf j = (sts id).tx.buf j)
      ∧ ((ttys_putc sts id c).2 id).rx = (sts id).rx
      ∧ (∀ k, k ≠ id → (ttys_putc sts id c).2 k = sts k)) := by
  have hnid : ¬ TTYS_NUM_INSTANCES ≤ id := by omega
  have hw := wrap_succ (sts id).tx.put TTYS_TX_BUF_SIZE hput
  constructor
  · intro hfull
    simp only [ttys_putc, if_neg hnid, hw, if_pos hfull]
  · intro hnfull
    simp only [ttys_putc, if_neg hnid, hw, if_neg hnfull]
    refine ⟨?_, ?_, ?_, ?_, ?_, ?_, ?_⟩
    · trivial
    · rw [upd_ttys_self]
    · rw [upd_ttys_self]
    · rw [upd_ttys_self]; exact upd_self _ _ _
    · intro j hj
      rw [upd_ttys_self]; exact upd_other _ _ _ _ hj
    · rw [upd_ttys_self]
    · intro k hk
      exact upd_ttys_other _ _ _ _ hk

/-- Witness for C3 at a concrete full TX ring (put = 1023, get = 0) on
instance 0. -/
theorem ttys_putc_overrun_witness :
    0 < TTYS_NUM_INSTANCES
    ∧ (c3_sts 0).tx.put < TTYS_TX_BUF_SIZE
    ∧ ((c3_sts 0).tx.put + 1) % TTYS_TX_BUF_SIZE = (c3_sts 0).tx.get
    ∧ ttys_putc c3_sts 0 7 = (SHELL_ERR_BUF_OVERRUN, c3_sts) := by
  refine ⟨by decide, by decide, by decide, ?_⟩
  exact (ttys_putc_overrun_or_store c3_sts 0 7 (by decide) (by decide)).1
    (by decide)

/-- C7: cmd_register stores a registration in the first slot that is empty
or already holds a case-insensitive name match (so a re-registration
overwrites in place and "tmr" then "TMR" leaves one occupied slot), returns
0 in that case, and when all CMD_MAX_CLIENTS slots are occupied by names
that do not match, returns SHELL_ERR_RESOURCE and leaves the registry
unchanged. -/
theorem cmd_register_first_slot_or_resource :
    (∀ regs ci, regs.length = CMD_MAX_CLIENTS →
      (∀ s ∈ regs, ∃ c, s = some c ∧ strcaseeq c.name ci.name = false) →
      cmd_register regs ci = (SHELL_ERR_RESOURCE, regs))
    ∧ (∀ (pre post : List (Option ClientInfo)) slot ci,
      (∀ s ∈ pre, ∃ c, s = some c ∧ strcaseeq c.name ci.name = false) →
      (slot = none ∨ ∃ c, slot = some c ∧ strcaseeq c.name ci.name = true) →
      cmd_register (pre ++ slot :: post) ci = (0, pre ++ some ci :: post))
    ∧ (((cmd_register (cmd_register empty_registry tmr_client).2
          tmr_upper_client).2.filter (fun s => s.isSome)).length = 1
        ∧ (cmd_register empty_registry tmr_client).1 = 0
        ∧ (cmd_register (cmd_register empty_registry tmr_client).2
            tmr_upper_client).1 = 0) := by
  refine ⟨?_, ?_, ?_⟩
  · intro regs ci _ hocc
    clear * - hocc
    induction regs with
    | nil => rfl
    | cons s rest ih =>
      obtain ⟨c, hc, hne⟩ := hocc s (by simp)
      subst hc
      have hrest := ih (fun x hx => hocc x (by simp [hx]))
      simp [cmd_register, hne, hrest]
  · intro pre post slot ci hocc hslot
    induction pre with
    | nil =>
      rcases hslot with h | ⟨c, hc, hmatch⟩
      · subst h; rfl
      · subst hc
        simp [cmd_register, hmatch]
    | cons s rest ih =>
      obtain ⟨c, hc, hne⟩ := hocc s (by simp)
      subst hc
      have hrest := ih (fun x hx => hocc x (by simp [hx]))
      simp [cmd_register, hne, hrest]
  · exact ⟨rfl, rfl, rfl⟩

/-- Witness for C7: both branches at concrete registries. The full registry
holds ten distinct non-matching names; the partial registry has the first
slot occupied by a non-match followed by a free slot. -/
theorem cmd_register_witness :
    full_registry.length = CMD_MAX_CLIENTS
    ∧ cmd_register full_registry tmr_client
        = (SHELL_ERR_RESOURCE, full_registry)
    ∧ cmd_register ([some (named_client "dio")] ++ none ::
          List.replicate 8 (none : Option ClientInfo)) tmr_client
        = (0, [some (named_client "dio")] ++ some tmr_client ::
            List.replicate 8 (none : Option ClientInfo)) := by
  refine ⟨rfl, ?_, ?_⟩
  · refine cmd_register_first_slot_or_resource.1 full_registry tmr_client rfl ?_
    intro s hs
    fin_cases hs <;> exact ⟨_, rfl, by decide⟩
  · refine cmd_register_first_slot_or_resource.2.1 _ _ none tmr_client ?_
      (Or.inl rfl)
    intro s hs
    fin_cases hs <;> exact ⟨_, rfl, by decide⟩

theorem console_step_num_le (s : ConsoleState) (c : Nat)
    (h : s.num_cmd_bfr_chars ≤ CONSOLE_CMD_BFR_SIZE - 1) :
    (console_step s c).1.num_cmd_bfr_chars ≤ CONSOLE_CMD_BFR_SIZE - 1 := by
  unfold console_step
  split_ifs <;> simp_all <;> omega

theorem console_run_bytes_num_le (input : List Nat) :
    ∀ s : ConsoleState, s.num_cmd_bfr_chars ≤ CONSOLE_CMD_BFR_SIZE - 1 →
      (console_run_bytes s input).num_cmd_bfr_chars
        ≤ CONSOLE_CMD_BFR_SIZE - 1 := by
  induction input with
  | nil => intro s h; exact h
  | cons c cs ih =>
    intro s h
    exact ih _ (console_step_num_le s c h)

/-- C9: per input byte, a printable character is appended and echoed only
when the fill count is strictly below CONSOLE_CMD_BFR_SIZE - 1 = 79, and
otherwise only a bell is emitted and the state is unchanged; backspace and
delete decrement the fill count exactly when it is positive and are a no-op
at 0; consequently, over any sequence of processed bytes the fill count
stays at most 79, and the terminator written on line completion stays
within the 80-byte buffer. -/
theorem console_fill_count_invariant (s : ConsoleState) (c : Nat)
    (hinv : s.num_cmd_bfr_chars ≤ CONSOLE_CMD_BFR_SIZE - 1) :
    (console_step s c).1.num_cmd_bfr_chars ≤ CONSOLE_CMD_BFR_SIZE - 1
    ∧ (is_print c = true →
        s.num_cmd_bfr_chars < CONSOLE_CMD_BFR_SIZE - 1 →
        console_step s c =
          ({ s with cmd_bfr := upd s.cmd_bfr s.num_cmd_bfr_chars c,
                    num_cmd_bfr_chars := s.num_cmd_bfr_chars + 1 },
           [ConsoleEv.echo c]))
    ∧ (is_print c = true →
        CONSOLE_CMD_BFR_SIZE - 1 ≤ s.num_cmd_bfr_chars →
        console_step s c = (s, [ConsoleEv.bell]))
    ∧ ((c = 8 ∨ c = 127) → 0 < s.num_cmd_bfr_chars →
        console_step s c =
          ({ s with num_cmd_bfr_chars := s.num_cmd_bfr_chars - 1 },
           [ConsoleEv.erase]))
    ∧ ((c = 8 ∨ c = 127) → s.num_cmd_bfr_chars = 0 →
        console_step s c = (s, []))
    ∧ ((c = 10 ∨ c = 13) →
        (console_step s c).1.cmd_bfr s.num_cmd_bfr_chars = 0
        ∧ s.num_cmd_bfr_chars < CONSOLE_CMD_BFR_SIZE)
    ∧ (∀ input : List Nat,
        (console_run_bytes s input).num_cmd_bfr_chars
          ≤ CONSOLE_CMD_BFR_SIZE - 1) := by
  have hcsz : CONSOLE_CMD_BFR_SIZE = 80 := rfl
  refine ⟨console_step_num_le s c hinv, ?_, ?_, ?_, ?_, ?_,
    fun input => console_run_bytes_num_le input s hinv⟩
  · intro hp hroom
    have hc1 : ¬ (c = 10 ∨ c = 13) := by
      simp [is_print] at hp; omega
    have hc2 : ¬ (c = 8 ∨ c = 127) := by
      simp [is_print] at hp; omega
    have hc3 : c ≠ LOG_TOGGLE_CHAR := by
      simp [is_print, LOG_TOGGLE_CHAR] at hp ⊢; omega
    simp [console_step, hc1, hc2, hc3, hp, hroom]
  · intro hp hfull
    have hc1 : ¬ (c = 10 ∨ c = 13) := by
      simp [is_print] at hp; omega
    have hc2 : ¬ (c = 8 ∨ c = 127) := by
      simp [is_print] at hp; omega
    have hc3 : c ≠ LOG_TOGGLE_CHAR := by
      simp [is_print, LOG_TOGGLE_CHAR] at hp ⊢; omega
    have hnroom : ¬ s.num_cmd_bfr_chars < CONSOLE_CMD_BFR_SIZE - 1 := by
      omega
    simp [console_step, hc1, hc2, hc3, hp, hnroom]
  · intro hbs hpos
    have hc1 : ¬ (c = 10 ∨ c = 13) := by omega
    simp [console_step, hc1, hbs, hpos]
  · intro hbs hzero
    have hc1 : ¬ (c = 10 ∨ c = 13) := by omega
    simp [console_step, hc1, hbs, hzero]
  · intro hnl
    constructor
    · simp [console_step, hnl, upd_self]
    · omega

/-- Witness for C9 at the freshly initialized console state and the
printable byte 65. -/
theorem console_fill_count_witness :
    c9_s0.num_cmd_bfr_chars ≤ CONSOLE_CMD_BFR_SIZE - 1
    ∧ is_print 65 = true
    ∧ c9_s0.num_cmd_bfr_chars < CONSOLE_CMD_BFR_SIZE - 1
    ∧ console_step c9_s0 65 =
        ({ c9_s0 with cmd_bfr := upd c9_s0.cmd_bfr c9_s0.num_cmd_bfr_chars 65,
                      num_cmd_bfr_chars := c9_s0.num_cmd_bfr_chars + 1 },
         [ConsoleEv.echo 65]) := by
  refine ⟨by decide, by decide, by decide, ?_⟩
  exact (console_fill_count_invariant c9_s0 65 (by decide)).2.1 (by decide)
    (by decide)

theorem tok_go_fuel (n : Nat) : ∀ (m : Nat) (l : List Nat),
    l.length ≤ n → l.length ≤ m → tok_go n l = tok_go m l := by
  induction n with
  | zero =>
    intro m l h1 _
    have h0 : l = [] := by
      cases l with
      | nil => rfl
      | cons a as => simp at h1
    subst h0
    cases m <;> rfl
  | succ n ih =>
    intro m l h1 h2
    cases l with
    | nil => cases m <;> rfl
    | cons c cs =>
      cases m with
      | zero => simp at h2
      | succ m =>
        rw [tok_go, tok_go]
        by_cases hc : is_space c
        · simp only [hc, if_true]
          exact ih m cs (by simp at h1; omega) (by simp at h2; omega)
        · simp only [hc, if_false]
          have hdw := (List.dropWhile_sublist (l := cs)
            (p := fun d => !is_space d)).length_le
          exact congrArg
            (fun t => (c :: cs.takeWhile (fun d => !is_space d)) :: t)
            (ih m (cs.dropWhile (fun d => !is_space d))
              (by simp at h1; omega) (by simp at h2; omega))

theorem cmd_tokenize_nil : cmd_tokenize [] = [] := rfl

theorem cmd_tokenize_cons (c : Nat) (cs : List Nat) :
    cmd_tokenize (c :: cs) =
      if is_space c then cmd_tokenize cs
      else (c :: cs.takeWhile (fun d => !is_space d)) ::
        cmd_tokenize (cs.dropWhile (fun d => !is_space d)) := by
  show tok_go (c :: cs).length (c :: cs) = _
  simp only [List.length_cons]
  rw [tok_go]
  by_cases hc : is_space c
  · simp only [hc, if_true]
    rfl
  · simp only [hc, if_false]
    have hdw := (List.dropWhile_sublist (l := cs)
      (p := fun d => !is_space d)).length_le
    exact congrArg
      (fun t => (c :: cs.takeWhile (fun d => !is_space d)) :: t)
      (tok_go_fuel cs.length
        (cs.dropWhile (fun d => !is_space d)).length
        (cs.dropWhile (fun d => !is_space d)) (by omega) le_rfl)

theorem cmd_tokenize_all_space (l : List Nat)
    (h : ∀ c ∈ l, is_space c = true) : cmd_tokenize l = [] := by
  induction l with
  | nil => rfl
  | cons c cs ih =>
    have hc := h c (by simp)
    rw [cmd_tokenize_cons]
    simp only [hc, if_true]
    exact ih (fun x hx => h x (by simp [hx]))

theorem cmd_tokenize_tokens_aux (n : Nat) : ∀ l : List Nat, l.length ≤ n →
    ∀ t ∈ cmd_tokenize l, t ≠ [] ∧ ∀ c ∈ t, is_space c = false := by
  induction n with
  | zero =>
    intro l hl t ht
    have h0 : l = [] := List.eq_nil_of_length_eq_zero (by omega)
    subst h0
    simp [cmd_tokenize_nil] at ht
  | succ n ih =>
    intro l hl t ht
    match l with
    | [] => simp [cmd_tokenize_nil] at ht
    | c :: cs =>
      by_cases hc : is_space c
      · rw [cmd_tokenize_cons] at ht
        simp only [hc, if_true] at ht
        exact ih cs (by simp at hl; omega) t ht
      · rw [cmd_tokenize_cons] at ht
        simp only [hc, if_false] at ht
        rcases List.mem_cons.mp ht with rfl | ht2
        · refine ⟨by simp, ?_⟩
          intro x hx
          rcases List.mem_cons.mp hx with rfl | hx2
          · exact Bool.not_eq_true _ ▸ eq_false_of_ne_true hc
          · have := List.mem_takeWhile_imp hx2
            simpa using this
        · refine ih _ ?_ t ht2
          have := (List.dropWhile_sublist
            (l := cs) (p := fun d => !is_space d)).length_le
          simp at hl
          omega

/-- C5: cmd_execute tokenizes its input on whitespace into non-empty
whitespace-free substrings in order (the line "  tmr   status  " yields
exactly "tmr" and "status"); a line of only whitespace yields zero tokens
and cmd_execute returns 0 without invoking any handler; and a line with
more than MAX_CMD_TOKENS = 10 tokens makes cmd_execute return
SHELL_ERR_BAD_CMD without invoking any handler. -/
theorem cmd_execute_tokenization :
    cmd_tokenize (bytes "  tmr   status  ") = [bytes "tmr", bytes "status"]
    ∧ (∀ clients line, (∀ c ∈ line, is_space c = true) →
        cmd_execute clients line = ⟨0, clients, []⟩)
    ∧ (∀ clients line, MAX_CMD_TOKENS < (cmd_tokenize line).length →
        cmd_execute clients line = ⟨SHELL_ERR_BAD_CMD, clients, []⟩)
    ∧ (∀ line t, t ∈ cmd_tokenize line →
        t ≠ [] ∧ ∀ c ∈ t, is_space c = false) := by
  refine ⟨by decide, ?_, ?_, ?_⟩
  · intro clients line h
    simp [cmd_execute, cmd_execute_toks, cmd_tokenize_all_space line h,
      MAX_CMD_TOKENS]
  · intro clients line h
    simp [cmd_execute, cmd_execute_toks, h]
  · intro line t ht
    exact cmd_tokenize_tokens_aux line.length line le_rfl t ht

/-- Witness for C5: the whitespace-only line returns 0 with no handler
call, and an eleven-token line returns SHELL_ERR_BAD_CMD. -/
theorem cmd_execute_tokenization_witness :
    (∀ c ∈ bytes "   ", is_space c = true)
    ∧ cmd_execute [] (bytes "   ") = ⟨0, [], []⟩
    ∧ MAX_CMD_TOKENS < (cmd_tokenize (bytes "a b c d e f g h i j k")).length
    ∧ cmd_execute [] (bytes "a b c d e f g h i j k")
        = ⟨SHELL_ERR_BAD_CMD, [], []⟩ := by
  refine ⟨by decide, ?_, by decide, ?_⟩
  · exact cmd_execute_tokenization.2.1 [] (bytes "   ") (by decide)
  · exact cmd_execute_tokenization.2.2.1 [] (bytes "a b c d e f g h i j k")
      (by decide)

/-- C6: for the wildcard line "* log <level>", a known level name sets the
log-level of every registered client exposing one to its numeric value and
returns 0; an unknown level name returns SHELL_ERR_ARG with no client
changed; and any line with more than one token after "log" (two or more
trailing tokens, up to the token cap at which tokenization itself fails)
returns SHELL_ERR_ARG with no client changed. "off" is level 0. -/
theorem cmd_execute_wildcard_log :
    (∀ clients line lvl,
      cmd_tokenize line = [bytes "*", bytes "log", lvl] →
      (0 ≤ log_level_int lvl →
        cmd_execute clients line =
          ⟨0,
           clients.map (fun ci => if ci.logLevel.isSome
             then { ci with logLevel := some (log_level_int lvl) } else ci),
           []⟩)
      ∧ (log_level_int lvl < 0 →
        cmd_execute clients line = ⟨SHELL_ERR_ARG, clients, []⟩))
    ∧ (∀ clients line t2 t3 (rest : List (List Nat)),
      cmd_tokenize line = bytes "*" :: bytes "log" :: t2 :: t3 :: rest →
      (cmd_tokenize line).length ≤ MAX_CMD_TOKENS →
      cmd_execute clients line = ⟨SHELL_ERR_ARG, clients, []⟩)
    ∧ log_level_int (bytes "off") = 0 := by
  have h3 : strcaseeq (bytes "log") (bytes "log") = true := by decide
  refine ⟨?_, ?_, by decide⟩
  · intro clients line lvl htoks
    constructor
    · intro hpos
      have hlt : ¬ log_level_int lvl < 0 := by omega
      simp [cmd_execute, cmd_execute_toks, htoks, cmd_wildcard, h3, hlt,
        MAX_CMD_TOKENS]
    · intro hneg
      simp [cmd_execute, cmd_execute_toks, htoks, cmd_wildcard, h3, hneg,
        MAX_CMD_TOKENS]
  · intro clients line t2 t3 rest htoks hlen
    rw [htoks] at hlen
    simp only [List.length_cons] at hlen
    have hn : ¬ MAX_CMD_TOKENS < rest.length + 1 + 1 + 1 + 1 := by omega
    have h2n : ¬ rest.length + 1 + 1 + 1 + 1 < 2 := by omega
    have h3n : ¬ rest.length + 1 + 1 + 1 + 1 = 3 := by omega
    have h4n : 3 < rest.length + 1 + 1 + 1 + 1 := by omega
    simp [cmd_execute, cmd_execute_toks, htoks, cmd_wildcard, h3, hn, h2n,
      h3n, h4n]

/-- Witness for C6: "* log off" on a two-client registry sets the exposed
level to 0 and returns 0, and the seven-token line "* log off 1 2 3 4"
(five tokens after "log") returns SHELL_ERR_ARG with no client changed. -/
theorem cmd_execute_wildcard_log_witness :
    cmd_tokenize (bytes "* log off") = [bytes "*", bytes "log", bytes "off"]
    ∧ (0 : Int) ≤ log_level_int (bytes "off")
    ∧ cmd_execute [⟨bytes "tmr", [], some 3⟩, ⟨bytes "dio", [], none⟩]
        (bytes "* log off")
        = ⟨0, [⟨bytes "tmr", [], some (log_level_int (bytes "off"))⟩,
               ⟨bytes "dio", [], none⟩], []⟩
    ∧ cmd_tokenize (bytes "* log off 1 2 3 4")
        = bytes "*" :: bytes "log" :: bytes "off" :: bytes "1"
            :: [bytes "2", bytes "3", bytes "4"]
    ∧ (cmd_tokenize (bytes "* log off 1 2 3 4")).length ≤ MAX_CMD_TOKENS
    ∧ cmd_execute [⟨bytes "tmr", [], some 3⟩] (bytes "* log off 1 2 3 4")
        = ⟨SHELL_ERR_ARG, [⟨bytes "tmr", [], some 3⟩], []⟩ := by
  refine ⟨by decide, by decide, ?_, by decide, by decide, ?_⟩
  · exact (cmd_execute_wildcard_log.1
      [⟨bytes "tmr", [], some 3⟩, ⟨bytes "dio", [], none⟩]
      (bytes "* log off") (bytes "off") (by decide)).1 (by decide)
  · exact cmd_execute_wildcard_log.2.1 [⟨bytes "tmr", [], some 3⟩]
      (bytes "* log off 1 2 3 4") (bytes "off") (bytes "1")
      [bytes "2", bytes "3", bytes "4"] (by decide) (by decide)

theorem cmd_find_client_none (toks : List (List Nat)) :
    ∀ clients : List ClientInfo,
    clients.find? (fun ci => strcaseeq (toks.getD 0 []) ci.name) = none →
    cmd_find_client clients toks = ⟨SHELL_ERR_BAD_CMD, clients, []⟩ := by
  intro clients
  induction clients with
  | nil => intro _; rfl
  | cons c0 rest ih =>
    intro h
    by_cases hp : strcaseeq (toks.getD 0 []) c0.name
    · simp only [List.find?, hp] at h
      simp at h
    · have hp2 : strcaseeq (toks.getD 0 []) c0.name = false := by
        simpa using hp
      simp only [List.find?, hp2] at h
      rw [cmd_find_client, if_neg hp, ih h]

theorem cmd_find_client_some (toks : List (List Nat)) :
    ∀ (clients : List ClientInfo) (ci : ClientInfo),
    clients.find? (fun c => strcaseeq (toks.getD 0 []) c.name) = some ci →
    (cmd_find_client clients toks).ret = (cmd_client_dispatch ci toks).1
    ∧ (cmd_find_client clients toks).calls = (cmd_client_dispatch ci toks).2.2
    ∧ ((cmd_client_dispatch ci toks).2.1 = ci →
        (cmd_find_client clients toks).clients = clients) := by
  intro clients
  induction clients with
  | nil => intro ci h; simp at h
  | cons c0 rest ih =>
    intro ci h
    by_cases hp : strcaseeq (toks.getD 0 []) c0.name
    · simp only [List.find?, hp] at h
      have hci : c0 = ci := by simpa using h
      subst hci
      rw [cmd_find_client, if_pos hp]
      refine ⟨rfl, rfl, ?_⟩
      intro h2
      show (cmd_client_dispatch c0 toks).2.1 :: rest = c0 :: rest
      rw [h2]
    · have hp2 : strcaseeq (toks.getD 0 []) c0.name = false := by
        simpa using hp
      simp only [List.find?, hp2] at h
      obtain ⟨ha, hb, hc⟩ := ih ci h
      rw [cmd_find_client, if_neg hp]
      refine ⟨ha, hb, ?_⟩
      intro h2
      show c0 :: (cmd_find_client rest toks).clients = c0 :: rest
      rw [hc h2]

theorem cmd_client_dispatch_search (ci : ClientInfo) (toks : List (List Nat))
    (hh : strcaseeq (toks.getD 1 []) (bytes "help") = false)
    (hq : strcaseeq (toks.getD 1 []) (bytes "?") = false)
    (hl : strcaseeq (toks.getD 1 []) (bytes "log") = false) :
    (∀ k, find_cmd ci.cmds (toks.getD 1 []) = some k →
      cmd_client_dispatch ci toks =
        (0, ci, [⟨ci.name, k.name, toks.length, toks,
          k.func toks.length toks⟩]))
    ∧ (find_cmd ci.cmds (toks.getD 1 []) = none →
      cmd_client_dispatch ci toks = (SHELL_ERR_BAD_CMD, ci, [])) := by
  constructor
  · intro k hk
    simp only [cmd_client_dispatch]
    rw [hh, hq, hl, if_neg (by simp), if_neg (by simp), hk]
  · intro hk
    simp only [cmd_client_dispatch]
    rw [hh, hq, hl, if_neg (by simp), if_neg (by simp), hk]

/-- C1 (amended): for a line whose first token matches a registered client
and whose second token is not help, "?" or log, cmd_execute invokes the
first case-insensitively matching command's handler with the full token
list and token count, leaves the registrations unchanged, and returns 0
regardless of the handler's status; if no command name matches, it returns
SHELL_ERR_BAD_CMD with no handler invoked. -/
theorem cmd_execute_dispatch_returns_zero
    (clients : List ClientInfo) (line : List Nat) (t0 t1 : List Nat)
    (rest : List (List Nat)) (ci : ClientInfo)
    (htoks : cmd_tokenize line = t0 :: t1 :: rest)
    (hlen : (t0 :: t1 :: rest).length ≤ MAX_CMD_TOKENS)
    (hstar : (t0 == bytes "*") = false)
    (hh0 : strcaseeq t0 (bytes "help") = false)
    (hq0 : strcaseeq t0 (bytes "?") = false)
    (hh1 : strcaseeq t1 (bytes "help") = false)
    (hq1 : strcaseeq t1 (bytes "?") = false)
    (hl1 : strcaseeq t1 (bytes "log") = false)
    (hfind : clients.find? (fun c => strcaseeq t0 c.name) = some ci) :
    (∀ k, find_cmd ci.cmds t1 = some k →
      (cmd_execute clients line).ret = 0
      ∧ (cmd_execute clients line).clients = clients
      ∧ (cmd_execute clients line).calls =
          [⟨ci.name, k.name, (t0 :: t1 :: rest).length, t0 :: t1 :: rest,
            k.func (t0 :: t1 :: rest).length (t0 :: t1 :: rest)⟩])
    ∧ (find_cmd ci.cmds t1 = none →
      (cmd_execute clients line).ret = SHELL_ERR_BAD_CMD
      ∧ (cmd_execute clients line).clients = clients
      ∧ (cmd_execute clients line).calls = []) := by
  have hnlen : ¬ MAX_CMD_TOKENS < rest.length + 1 + 1 := by
    simp only [List.length_cons] at hlen
    omega
  have hexec : cmd_execute clients line
      = cmd_find_client clients (t0 :: t1 :: rest) := by
    simp [cmd_execute, cmd_execute_toks, htoks, hnlen, hstar, hh0, hq0]
  have hs := cmd_find_client_some (t0 :: t1 :: rest) clients ci hfind
  obtain ⟨ha, hb, hc⟩ := hs
  have hd := cmd_client_dispatch_search ci (t0 :: t1 :: rest) hh1 hq1 hl1
  constructor
  · intro k hk
    have he := hd.1 k hk
    rw [hexec]
    refine ⟨?_, ?_, ?_⟩
    · rw [ha, he]
    · exact hc (by rw [he])
    · rw [hb, he]
  · intro hk
    have he := hd.2 hk
    rw [hexec]
    refine ⟨?_, ?_, ?_⟩
    · rw [ha, he]
    · exact hc (by rw [he])
    · rw [hb, he]

/-- Witness for C1's amended theorem: "tmr status" on the registry whose
handler returns 7 invokes that handler with both tokens and returns 0. -/
theorem cmd_execute_dispatch_witness :
    (cmd_execute c1_clients (bytes "tmr status")).ret = 0
    ∧ (cmd_execute c1_clients (bytes "tmr status")).clients = c1_clients
    ∧ (cmd_execute c1_clients (bytes "tmr status")).calls =
        [⟨bytes "tmr", bytes "status", 2, [bytes "tmr", bytes "status"],
          c1_handler 2 [bytes "tmr", bytes "status"]⟩] := by
  exact (cmd_execute_dispatch_returns_zero c1_clients (bytes "tmr status")
    (bytes "tmr") (bytes "status") [] ⟨bytes "tmr",
      [⟨bytes "status", c1_handler⟩], none⟩
    (by decide) (by decide) (by decide) (by decide) (by decide) (by decide)
    (by decide) (by decide) (by rfl)).1
    ⟨bytes "status", c1_handler⟩ (by rfl)

/-- C1 counterexample to the claim as stated: the handler of "tmr status"
returns 7, but cmd_execute discards that status and returns 0, so the
handler's status code is not propagated. -/
theorem cmd_execute_discards_handler_status :
    (cmd_execute c1_clients (bytes "tmr status")).ret = 0
    ∧ (cmd_execute c1_clients (bytes "tmr status")).calls.map
        (fun h => h.result) = [7]
    ∧ (cmd_execute c1_clients (bytes "tmr status")).ret ≠ 7 := by
  refine ⟨by decide, by decide, by decide⟩

theorem mod_two_region (a N : Nat) (h1 : N ≤ a) (h2 : a < 2 * N) :
    a % N = a - N := by
  rw [Nat.mod_eq_sub_mod h1, Nat.mod_eq_of_lt (by omega)]

theorem ring_size_eq (N : Nat) (s : RingState) (hp : s.put < N)
    (hg : s.get < N) :
    ring_size N s
      = if s.get ≤ s.put then s.put - s.get else s.put + N - s.get := by
  unfold ring_size
  by_cases h : s.get ≤ s.put
  · rw [if_pos h]
    have h3 := mod_two_region (s.put + N - s.get) N (by omega) (by omega)
    omega
  · rw [if_neg h, Nat.mod_eq_of_lt (by omega)]

theorem ring_size_zero_iff (N : Nat) (s : RingState) (hp : s.put < N)
    (hg : s.get < N) : ring_size N s = 0 ↔ s.put = s.get := by
  have h := ring_size_eq N s hp hg
  by_cases hle : s.get ≤ s.put
  · rw [if_pos hle] at h
    omega
  · rw [if_neg hle] at h
    omega

theorem ring_content_length (N : Nat) (s : RingState) :
    (ring_content N s).length = ring_size N s := by
  simp [ring_content]

theorem ring_pop_empty_eq (N : Nat) (s : RingState) (h : s.get = s.put) :
    ring_pop N s = (none, s) := by
  simp [ring_pop, h]

theorem ring_put_spec (N : Nat) (s : RingState) (c : Nat) (hp : s.put < N)
    (hg : s.get < N) (hroom : ring_size N s < N - 1) :
    ring_put N s c = (0, ⟨upd s.buf s.put c, (s.put + 1) % N, s.get⟩)
    ∧ ring_content N ⟨upd s.buf s.put c, (s.put + 1) % N, s.get⟩
        = ring_content N s ++ [c] := by
  have hsz := ring_size_eq N s hp hg
  have hw := wrap_succ s.put N hp
  have hne : (s.put + 1) % N ≠ s.get := by
    by_cases hle : s.get ≤ s.put
    · rw [if_pos hle] at hsz
      by_cases hpN : s.put + 1 = N
      · have h0 : (s.put + 1) % N = 0 := by rw [hpN, Nat.mod_self]
        rw [h0]
        omega
      · rw [Nat.mod_eq_of_lt (by omega)]
        omega
    · rw [if_neg hle] at hsz
      rw [Nat.mod_eq_of_lt (by omega)]
      omega
  have hfst : ring_put N s c
      = (0, ⟨upd s.buf s.put c, (s.put + 1) % N, s.get⟩) := by
    unfold ring_put
    rw [hw, if_neg hne]
  refine ⟨hfst, ?_⟩
  have hB : (s.get + ring_size N s) % N = s.put := by
    by_cases hle : s.get ≤ s.put
    · rw [if_pos hle] at hsz
      rw [show s.get + ring_size N s = s.put by omega,
        Nat.mod_eq_of_lt (by omega)]
    · rw [if_neg hle] at hsz
      rw [show s.get + ring_size N s = s.put + N by omega]
      rw [mod_two_region _ _ (by omega) (by omega)]
      omega
  have hA : ∀ i, i < ring_size N s → (s.get + i) % N ≠ s.put := by
    intro i hi
    by_cases hle : s.get ≤ s.put
    · rw [if_pos hle] at hsz
      rw [Nat.mod_eq_of_lt (by omega)]
      omega
    · rw [if_neg hle] at hsz
      by_cases hlt : s.get + i < N
      · rw [Nat.mod_eq_of_lt hlt]
        omega
      · rw [mod_two_region _ _ (by omega) (by omega)]
        omega
  have hsize2 : ring_size N ⟨upd s.buf s.put c, (s.put + 1) % N, s.get⟩
      = ring_size N s + 1 := by
    have hstart : ring_size N ⟨upd s.buf s.put c, (s.put + 1) % N, s.get⟩
        = ((s.put + 1) % N + N - s.get) % N := rfl
    rw [hstart]
    by_cases hle : s.get ≤ s.put
    · rw [if_pos hle] at hsz
      by_cases hpN : s.put + 1 = N
      · have h0 : (s.put + 1) % N = 0 := by rw [hpN, Nat.mod_self]
        rw [h0, Nat.mod_eq_of_lt (by omega)]
        omega
      · have h1 : (s.put + 1) % N = s.put + 1 := Nat.mod_eq_of_lt (by omega)
        rw [h1, mod_two_region _ _ (by omega) (by omega)]
        omega
    · rw [if_neg hle] at hsz
      have h1 : (s.put + 1) % N = s.put + 1 := Nat.mod_eq_of_lt (by omega)
      rw [h1, Nat.mod_eq_of_lt (by omega)]
      omega
  show ring_content N ⟨upd s.buf s.put c, (s.put + 1) % N, s.get⟩
      = ring_content N s ++ [c]
  unfold ring_content
  rw [hsize2, List.range_succ, List.map_append]
  simp only
  congr 1
  · refine List.map_congr_left ?_
    intro i hi
    have hi2 : i < ring_size N s := List.mem_range.mp hi
    exact upd_other _ _ _ _ (hA i hi2)
  · simp only [List.map_cons, List.map_nil]
    rw [hB, upd_self]

theorem ring_pop_spec (N : Nat) (s : RingState) (hp : s.put < N)
    (hg : s.get < N) (hpos : 0 < ring_size N s) :
    ring_pop N s = (some (s.buf s.get), ⟨s.buf, s.put, (s.get + 1) % N⟩)
    ∧ ring_content N s
        = s.buf s.get :: ring_content N ⟨s.buf, s.put, (s.get + 1) % N⟩ := by
  have hsz := ring_size_eq N s hp hg
  have hne : s.get ≠ s.put := by
    intro h
    rw [(ring_size_zero_iff N s hp hg).mpr h.symm] at hpos
    omega
  have hfst : ring_pop N s
      = (some (s.buf s.get), ⟨s.buf, s.put, (s.get + 1) % N⟩) := by
    unfold ring_pop
    rw [if_neg hne, wrap_succ s.get N hg]
  refine ⟨hfst, ?_⟩
  have hsize2 : ring_size N ⟨s.buf, s.put, (s.get + 1) % N⟩
      = ring_size N s - 1 := by
    have hstart : ring_size N ⟨s.buf, s.put, (s.get + 1) % N⟩
        = (s.put + N - (s.get + 1) % N) % N := rfl
    rw [hstart]
    by_cases hle : s.get ≤ s.put
    · rw [if_pos hle] at hsz
      have hlt : s.get < s.put := by omega
      have h1 : (s.get + 1) % N = s.get + 1 := Nat.mod_eq_of_lt (by omega)
      rw [h1, mod_two_region _ _ (by omega) (by omega)]
      omega
    · rw [if_neg hle] at hsz
      by_cases hgN : s.get + 1 = N
      · have h0 : (s.get + 1) % N = 0 := by rw [hgN, Nat.mod_self]
        rw [h0, mod_two_region _ _ (by omega) (by omega)]
        omega
      · have h1 : (s.get + 1) % N = s.get + 1 := Nat.mod_eq_of_lt (by omega)
        rw [h1, Nat.mod_eq_of_lt (by omega)]
        omega
  have hk : ring_size N s = (ring_size N s - 1) + 1 := by omega
  show ring_content N s = _
  unfold ring_content
  rw [hsize2, hk, List.range_succ_eq_map, List.map_cons]
  congr 1
  · rw [Nat.add_zero, Nat.mod_eq_of_lt hg]
  · rw [List.map_map]
    refine List.map_congr_left ?_
    intro i hi
    show s.buf ((s.get + (i + 1)) % N) = s.buf (((s.get + 1) % N + i) % N)
    rw [Nat.mod_add_mod]
    rw [show s.get + 1 + i = s.get + (i + 1) by omega]

theorem ring_put_list_spec (N : Nat) (hN : 2 ≤ N) :
    ∀ (bs : List Nat) (s : RingState), s.put < N → s.get < N →
      ring_size N s + bs.length ≤ N - 1 →
      ∃ s', ring_put_list N s bs = some s'
        ∧ s'.put < N ∧ s'.get < N
        ∧ ring_content N s' = ring_content N s ++ bs := by
  intro bs
  induction bs with
  | nil =>
    intro s hp hg _
    exact ⟨s, rfl, hp, hg, by simp⟩
  | cons c cs ih =>
    intro s hp hg hroom
    have hroom1 : ring_size N s < N - 1 := by
      simp only [List.length_cons] at hroom
      omega
    obtain ⟨hput, hcontent⟩ := ring_put_spec N s c hp hg hroom1
    have hp2 : (⟨upd s.buf s.put c, (s.put + 1) % N, s.get⟩ : RingState).put
        < N := Nat.mod_lt _ (by omega)
    have hsz2 : ring_size N ⟨upd s.buf s.put c, (s.put + 1) % N, s.get⟩
        = ring_size N s + 1 := by
      have h1 := ring_content_length N
        ⟨upd s.buf s.put c, (s.put + 1) % N, s.get⟩
      have h2 := ring_content_length N s
      rw [hcontent] at h1
      simp only [List.length_append, List.length_cons, List.length_nil] at h1
      omega
    obtain ⟨s', h1, h2, h3, h4⟩ :=
      ih ⟨upd s.buf s.put c, (s.put + 1) % N, s.get⟩ hp2 hg
        (by simp only [List.length_cons] at hroom; omega)
    refine ⟨s', ?_, h2, h3, ?_⟩
    · rw [ring_put_list, hput]
      simpa using h1
    · rw [h4, hcontent]
      simp

theorem ring_pop_list_spec (N : Nat) (hN : 2 ≤ N) :
    ∀ (k : Nat) (s : RingState), s.put < N → s.get < N →
      ring_size N s = k →
      (ring_pop_list N k s).1 = ring_content N s
      ∧ (ring_pop_list N k s).2.put < N
      ∧ (ring_pop_list N k s).2.get < N
      ∧ ring_size N (ring_pop_list N k s).2 = 0 := by
  intro k
  induction k with
  | zero =>
    intro s hp hg hsz
    have hc : ring_content N s = [] := by
      unfold ring_content
      rw [hsz]
      simp
    exact ⟨by simp [ring_pop_list, hc], hp, hg, hsz⟩
  | succ k ih =>
    intro s hp hg hsz
    obtain ⟨hpop, hcontent⟩ := ring_pop_spec N s hp hg (by omega)
    have hg2 : (⟨s.buf, s.put, (s.get + 1) % N⟩ : RingState).get < N :=
      Nat.mod_lt _ (by omega)
    have hsz2 : ring_size N ⟨s.buf, s.put, (s.get + 1) % N⟩ = k := by
      have h1 := ring_content_length N s
      have h2 := ring_content_length N ⟨s.buf, s.put, (s.get + 1) % N⟩
      rw [hcontent] at h1
      simp only [List.length_cons] at h1
      omega
    obtain ⟨h1, h2, h3, h4⟩ :=
      ih ⟨s.buf, s.put, (s.get + 1) % N⟩ hp hg2 hsz2
    have hstep : ring_pop_list N (k + 1) s
        = (s.buf s.get ::
            (ring_pop_list N k ⟨s.buf, s.put, (s.get + 1) % N⟩).1,
           (ring_pop_list N k ⟨s.buf, s.put, (s.get + 1) % N⟩).2) := by
      rw [ring_pop_list, hpop]
    rw [hstep]
    exact ⟨by rw [hcontent]; simpa using h1, h2, h3, h4⟩

/-- C4: starting from a zeroed ring, any sequence of at most capacity-1
bytes appended by the producer step is reproduced exactly, in FIFO order,
by the consumer step, after which the ring is empty again; and ttys_getc on
an empty RX ring (get = put) delivers no byte and leaves the whole state
unchanged. -/
theorem ring_buffer_fifo (N : Nat) (bs : List Nat) (hN : 2 ≤ N)
    (hlen : bs.length ≤ N - 1) :
    (∃ s', ring_put_list N ring_zero bs = some s'
      ∧ (ring_pop_list N bs.length s').1 = bs
      ∧ (ring_pop N (ring_pop_list N bs.length s').2).1 = none)
    ∧ (∀ (sts : Nat → TtysState) (id : Nat), id < TTYS_NUM_INSTANCES →
        (sts id).rx.get = (sts id).rx.put →
        ttys_getc sts id = (0, none, sts)) := by
  constructor
  · have hz1 : ring_zero.put < N := by
      show 0 < N
      omega
    have hz2 : ring_zero.get < N := by
      show 0 < N
      omega
    have hsz0 : ring_size N ring_zero = 0 := by
      show (0 + N - 0) % N = 0
      simp
    have hcontent0 : ring_content N ring_zero = [] := by
      unfold ring_content
      rw [hsz0]
      simp
    obtain ⟨s', h1, h2, h3, h4⟩ := ring_put_list_spec N hN bs ring_zero
      hz1 hz2 (by omega)
    have hc : ring_content N s' = bs := by
      rw [h4, hcontent0]
      simp
    have hsz' : ring_size N s' = bs.length := by
      rw [← ring_content_length, hc]
    obtain ⟨g1, g2, g3, g4⟩ := ring_pop_list_spec N hN bs.length s'
      h2 h3 hsz'
    refine ⟨s', h1, by rw [g1, hc], ?_⟩
    have hfin := (ring_size_zero_iff N _ g2 g3).mp g4
    rw [ring_pop_empty_eq N _ hfin.symm]
  · intro sts id hid hempty
    have hn : ¬ TTYS_NUM_INSTANCES ≤ id := by omega
    simp [ttys_getc, hn, hempty]

/-- Witness for C4 at the TX ring capacity and the byte list 10, 20, 30. -/
theorem ring_buffer_fifo_witness :
    2 ≤ TTYS_TX_BUF_SIZE
    ∧ ([10, 20, 30] : List Nat).length ≤ TTYS_TX_BUF_SIZE - 1
    ∧ ((∃ s', ring_put_list TTYS_TX_BUF_SIZE ring_zero [10, 20, 30] = some s'
        ∧ (ring_pop_list TTYS_TX_BUF_SIZE 3 s').1 = [10, 20, 30]
        ∧ (ring_pop TTYS_TX_BUF_SIZE
            (ring_pop_list TTYS_TX_BUF_SIZE 3 s').2).1 = none)
      ∧ (∀ (sts : Nat → TtysState) (id : Nat), id < TTYS_NUM_INSTANCES →
          (sts id).rx.get = (sts id).rx.put →
          ttys_getc sts id = (0, none, sts))) :=
  ⟨by decide, by decide,
   ring_buffer_fifo TTYS_TX_BUF_SIZE [10, 20, 30] (by decide) (by decide)⟩

theorem cpa_go_bracket (g : Char) (fmt : List Char) (argv : List (List Nat))
    (opt : Bool) (cnt : Nat) (vals : List ArgVal)
    (hg : is_bracket g = true) :
    cpa_go (g :: fmt) argv opt cnt vals
      = cpa_go fmt argv (if g = '[' then true else opt) cnt vals := by
  rw [cpa_go.eq_def]
  by_cases h1 : g = '['
  · simp [h1]
  · have h2 : g = ']' := by
      simp [is_bracket, h1] at hg
      exact hg
    simp [h1, h2]

theorem cpa_go_typed_some (f : Char) (fmt : List Char) (a : List Nat)
    (argv : List (List Nat)) (opt : Bool) (cnt : Nat) (vals : List ArgVal)
    (v : ArgVal) (hb : is_bracket f = false) (hv : parse_tok f a = some v) :
    cpa_go (f :: fmt) (a :: argv) opt cnt vals
      = cpa_go fmt argv false (cnt + 1) (vals ++ [v]) := by
  have hf1 : f ≠ '[' := by
    intro h
    subst h
    simp [is_bracket] at hb
  have hf2 : f ≠ ']' := by
    intro h
    subst h
    simp [is_bracket] at hb
  have ha : a ≠ [] := by
    intro h
    subst h
    simp [parse_tok] at hv
  rw [cpa_go.eq_def]
  by_cases hi : f = 'i'
  · simp only [parse_tok, if_neg ha, if_pos hi] at hv
    by_cases hr : (strtol_model a 0).2 = []
    · simp only [if_pos hr] at hv
      obtain rfl := Option.some.inj hv
      simp [hf1, hf2, ha, hi, hr]
    · simp [hr] at hv
  · by_cases hu : f = 'u'
    · simp only [parse_tok, if_neg ha, if_neg hi, if_pos hu] at hv
      by_cases hr : (strtol_model a 0).2 = []
      · simp only [if_pos hr] at hv
        obtain rfl := Option.some.inj hv
        simp [hf1, hf2, ha, hi, hu, hr]
      · simp [hr] at hv
    · by_cases hp : f = 'p'
      · simp only [parse_tok, if_neg ha, if_neg hi, if_neg hu,
          if_pos hp] at hv
        by_cases hr : (strtol_model a 16).2 = []
        · simp only [if_pos hr] at hv
          obtain rfl := Option.some.inj hv
          simp [hf1, hf2, ha, hi, hu, hp, hr]
        · simp [hr] at hv
      · by_cases hs : f = 's'
        · simp only [parse_tok, if_neg ha, if_neg hi, if_neg hu, if_neg hp,
            if_pos hs] at hv
          obtain rfl := Option.some.inj hv
          simp [hf1, hf2, ha, hi, hu, hp, hs]
        · simp [parse_tok, ha, hi, hu, hp, hs] at hv

theorem cpa_go_typed_none (f : Char) (fmt : List Char) (a : List Nat)
    (argv : List (List Nat)) (opt : Bool) (cnt : Nat) (vals : List ArgVal)
    (hb : is_bracket f = false) (ha : a ≠ [])
    (hv : parse_tok f a = none) :
    cpa_go (f :: fmt) (a :: argv) opt cnt vals = (SHELL_ERR_ARG, vals) := by
  have hf1 : f ≠ '[' := by
    intro h
    subst h
    simp [is_bracket] at hb
  have hf2 : f ≠ ']' := by
    intro h
    subst h
    simp [is_bracket] at hb
  rw [cpa_go.eq_def]
  by_cases hi : f = 'i'
  · simp only [parse_tok, if_neg ha, if_pos hi] at hv
    by_cases hr : (strtol_model a 0).2 = []
    · simp [hr] at hv
    · simp [hf1, hf2, ha, hi, hr]
  · by_cases hu : f = 'u'
    · simp only [parse_tok, if_neg ha, if_neg hi, if_pos hu] at hv
      by_cases hr : (strtol_model a 0).2 = []
      · simp [hr] at hv
      · simp [hf1, hf2, ha, hi, hu, hr]
    · by_cases hp : f = 'p'
      · simp only [parse_tok, if_neg ha, if_neg hi, if_neg hu,
          if_pos hp] at hv
        by_cases hr : (strtol_model a 16).2 = []
        · simp [hr] at hv
        · simp [hf1, hf2, ha, hi, hu, hp, hr]
      · by_cases hs : f = 's'
        · simp [parse_tok, ha, hi, hu, hp, hs] at hv
        · simp [hf1, hf2, ha, hi, hu, hp, hs]

theorem cpa_go_field_some : ∀ (fmt : List Char) (f : Char) (fm2 : List Char),
    fmt.dropWhile is_bracket = f :: fm2 →
    ∀ (a : List Nat) (argv : List (List Nat)) (opt : Bool) (cnt : Nat)
      (vals : List ArgVal) (v : ArgVal), parse_tok f a = some v →
    cpa_go fmt (a :: argv) opt cnt vals
      = cpa_go fm2 argv false (cnt + 1) (vals ++ [v]) := by
  intro fmt
  induction fmt with
  | nil =>
    intro f fm2 h
    simp at h
  | cons g rest ih =>
    intro f fm2 h a argv opt cnt vals v hv
    by_cases hg : is_bracket g
    · rw [List.dropWhile_cons_of_pos hg] at h
      rw [cpa_go_bracket g rest _ _ _ _ hg]
      exact ih f fm2 h a argv _ cnt vals v hv
    · rw [List.dropWhile_cons_of_neg hg] at h
      injection h with h1 h2
      subst h1
      subst h2
      exact cpa_go_typed_some g rest a argv opt cnt vals v
        (by simpa using hg) hv

theorem cpa_go_field_none : ∀ (fmt : List Char) (f : Char) (fm2 : List Char),
    fmt.dropWhile is_bracket = f :: fm2 →
    ∀ (a : List Nat) (argv : List (List Nat)) (opt : Bool) (cnt : Nat)
      (vals : List ArgVal), a ≠ [] → parse_tok f a = none →
    cpa_go fmt (a :: argv) opt cnt vals = (SHELL_ERR_ARG, vals) := by
  intro fmt
  induction fmt with
  | nil =>
    intro f fm2 h
    simp at h
  | cons g rest ih =>
    intro f fm2 h a argv opt cnt vals ha hv
    by_cases hg : is_bracket g
    · rw [List.dropWhile_cons_of_pos hg] at h
      rw [cpa_go_bracket g rest _ _ _ _ hg]
      exact ih f fm2 h a argv _ cnt vals ha hv
    · rw [List.dropWhile_cons_of_neg hg] at h
      injection h with h1 h2
      subst h1
      subst h2
      exact cpa_go_typed_none g rest a argv opt cnt vals
        (by simpa using hg) ha hv

theorem cpa_go_parse_fields : ∀ (ts : List (List Nat)) (fmt : List Char)
    (vs : List ArgVal) (rem : List Char) (extra : List (List Nat))
    (opt : Bool) (cnt : Nat) (vals : List ArgVal),
    parse_fields fmt ts = some (vs, rem) →
    cpa_go fmt (ts ++ extra) opt cnt vals
      = cpa_go rem extra (if ts.isEmpty then opt else false)
          (cnt + ts.length) (vals ++ vs) := by
  intro ts
  induction ts with
  | nil =>
    intro fmt vs rem extra opt cnt vals h
    simp only [parse_fields, Option.some.injEq, Prod.mk.injEq] at h
    obtain ⟨rfl, rfl⟩ := h
    simp
  | cons a ts ih =>
    intro fmt vs rem extra opt cnt vals h
    rw [parse_fields] at h
    cases hdrop : fmt.dropWhile is_bracket with
    | nil =>
      rw [hdrop] at h
      simp at h
    | cons f fm2 =>
      rw [hdrop] at h
      simp only [] at h
      cases hv : parse_tok f a with
      | none =>
        rw [hv] at h
        simp at h
      | some v =>
        rw [hv] at h
        simp only [] at h
        cases hrec : parse_fields fm2 ts with
        | none =>
          rw [hrec] at h
          simp at h
        | some pr =>
          obtain ⟨vs2, r⟩ := pr
          rw [hrec] at h
          simp only [Option.some.injEq, Prod.mk.injEq] at h
          obtain ⟨rfl, rfl⟩ := h
          have hstep : cpa_go fmt ((a :: ts) ++ extra) opt cnt vals
              = cpa_go fm2 (ts ++ extra) false (cnt + 1) (vals ++ [v]) :=
            cpa_go_field_some fmt f fm2 hdrop a (ts ++ extra) opt cnt
              vals v hv
          rw [hstep, ih fm2 vs2 r extra false (cnt + 1) (vals ++ [v]) hrec]
          have hopt : (if ts.isEmpty then false else false) = false :=
            ite_self false
          have hcnt : cnt + 1 + ts.length = cnt + (a :: ts).length := by
            simp only [List.length_cons]
            omega
          have hvals : (vals ++ [v]) ++ vs2 = vals ++ (v :: vs2) := by
            simp
          rw [hopt, hcnt, hvals]
          simp

theorem cpa_go_empty_spec : ∀ (fmt : List Char) (opt : Bool) (cnt : Nat)
    (vals : List ArgVal),
    cpa_go fmt [] opt cnt vals
      = if opt = true ∨ '[' ∈ fmt.takeWhile is_bracket
            ∨ fmt.dropWhile is_bracket = []
        then ((cnt : Int), vals) else (SHELL_ERR_BAD_CMD, vals) := by
  intro fmt
  induction fmt with
  | nil =>
    intro opt cnt vals
    rw [cpa_go]
    simp
  | cons g rest ih =>
    intro opt cnt vals
    by_cases hg : is_bracket g
    · rw [cpa_go_bracket g rest _ _ _ _ hg, ih,
        List.takeWhile_cons_of_pos hg, List.dropWhile_cons_of_pos hg]
      by_cases h1 : g = '['
      · simp [h1]
      · have h2 : ('[' = g) = False := eq_false (fun hx => h1 hx.symm)
        simp [h1, h2]
    · have hg2 : is_bracket g = false := by simpa using hg
      have hf1 : g ≠ '[' := by
        intro h
        subst h
        simp [is_bracket] at hg2
      have hf2 : g ≠ ']' := by
        intro h
        subst h
        simp [is_bracket] at hg2
      rw [cpa_go.eq_def, List.takeWhile_cons_of_neg hg,
        List.dropWhile_cons_of_neg hg]
      by_cases hopt : opt
      · simp [hf1, hf2, hopt]
      · simp [hf1, hf2, hopt]

theorem cpa_go_extra_tokens : ∀ (fmt : List Char), fmt_fields fmt = 0 →
    ∀ (extra : List (List Nat)) (opt : Bool) (cnt : Nat)
      (vals : List ArgVal), extra ≠ [] →
    cpa_go fmt extra opt cnt vals = (SHELL_ERR_BAD_CMD, vals) := by
  intro fmt
  induction fmt with
  | nil =>
    intro _ extra opt cnt vals hx
    rw [cpa_go]
    simp [List.length_pos.mpr hx]
  | cons g rest ih =>
    intro hz extra opt cnt vals hx
    have hg : is_bracket g = true := by
      by_cases hg : is_bracket g
      · exact hg
      · exfalso
        have hg2 : is_bracket g = false := by simpa using hg
        simp [fmt_fields, List.filter, hg2] at hz
    have hz2 : fmt_fields rest = 0 := by
      simp [fmt_fields, List.filter, hg] at hz ⊢
      exact hz
    rw [cpa_go_bracket g rest _ _ _ _ hg]
    exact ih hz2 extra _ cnt vals hx

theorem dropWhile_head_not_bracket : ∀ (l : List Char) (f : Char)
    (rest : List Char), l.dropWhile is_bracket = f :: rest →
    is_bracket f = false := by
  intro l
  induction l with
  | nil =>
    intro f rest h
    simp at h
  | cons g tl ih =>
    intro f rest h
    by_cases hg : is_bracket g
    · rw [List.dropWhile_cons_of_pos hg] at h
      exact ih f rest h
    · rw [List.dropWhile_cons_of_neg hg] at h
      obtain ⟨rfl, -⟩ : g = f ∧ tl = rest := by
        injection h with h1 h2
        exact ⟨h1, h2⟩
      simpa using hg

theorem fmt_fields_dropWhile (fmt : List Char) :
    fmt_fields (fmt.dropWhile is_bracket) = fmt_fields fmt := by
  induction fmt with
  | nil => rfl
  | cons g rest ih =>
    by_cases hg : is_bracket g
    · rw [List.dropWhile_cons_of_pos hg, ih]
      simp [fmt_fields, List.filter, hg]
    · rw [List.dropWhile_cons_of_neg hg]

theorem parse_fields_count : ∀ (ts : List (List Nat)) (fmt : List Char)
    (vs : List ArgVal) (rem : List Char),
    parse_fields fmt ts = some (vs, rem) →
    fmt_fields fmt = ts.length + fmt_fields rem ∧ vs.length = ts.length := by
  intro ts
  induction ts with
  | nil =>
    intro fmt vs rem h
    simp only [parse_fields, Option.some.injEq, Prod.mk.injEq] at h
    obtain ⟨rfl, rfl⟩ := h
    simp
  | cons a ts ih =>
    intro fmt vs rem h
    rw [parse_fields] at h
    cases hdrop : fmt.dropWhile is_bracket with
    | nil =>
      rw [hdrop] at h
      simp at h
    | cons f fm2 =>
      rw [hdrop] at h
      simp only [] at h
      cases hv : parse_tok f a with
      | none =>
        rw [hv] at h
        simp at h
      | some v =>
        rw [hv] at h
        simp only [] at h
        cases hrec : parse_fields fm2 ts with
        | none =>
          rw [hrec] at h
          simp at h
        | some pr =>
          obtain ⟨vs2, r⟩ := pr
          rw [hrec] at h
          simp only [Option.some.injEq, Prod.mk.injEq] at h
          obtain ⟨rfl, rfl⟩ := h
          obtain ⟨ha, hb⟩ := ih fm2 vs2 r hrec
          have hf := dropWhile_head_not_bracket fmt f fm2 hdrop
          have h1 : fmt_fields fmt = fmt_fields (f :: fm2) := by
            rw [← fmt_fields_dropWhile fmt, hdrop]
          have h2 : fmt_fields (f :: fm2) = 1 + fmt_fields fm2 := by
            simp [fmt_fields, List.filter, hf]
            omega
          constructor
          · rw [h1, h2, ha]
            simp
            omega
          · simp [hb]

/-- C8 counterexample to the claim as stated: with format "i[ii" and two
integer tokens, the shortfall occurs at a field positioned after the '['
marker, so the claim predicts the count parsed so far (2); the code clears
`opt_args` after every parsed field, so it returns SHELL_ERR_BAD_CMD
instead (matching the header's documentation "i[ii - Requires either one or
three integer arguments"). -/
theorem cmd_parse_args_opt_reset_counterexample :
    fmt_fields ['i', '[', 'i', 'i'] = 3
    ∧ ([bytes "5", bytes "6"].length) = 2
    ∧ '[' ∈ (['i', '[', 'i', 'i'] : List Char)
    ∧ (cmd_parse_args [bytes "5", bytes "6"] ['i', '[', 'i', 'i']).1
        = SHELL_ERR_BAD_CMD
    ∧ SHELL_ERR_BAD_CMD ≠ (2 : Int) := by
  refine ⟨by decide, by decide, by decide, by decide, by decide⟩

/-- C8 (amended): cmd_parse_args with format "i[i" returns 1 on one integer
token, 2 on two, and BadCommand on zero tokens. In general, fields are
consumed left to right: when tokens run out at a field, the count parsed so
far is returned exactly when a '[' stands between the last parsed field and
that field (each parsed field clears optionality, each '[' re-arms it), and
BadCommand is returned otherwise; when every field is satisfied but tokens
remain, BadCommand; when the first failing token is present, non-empty and
fails its field's lexical conversion, InvalidArg. -/
theorem cmd_parse_args_spec :
    cmd_parse_args [bytes "5"] ['i', '[', 'i'] = (1, [ArgVal.iv 5])
    ∧ cmd_parse_args [bytes "5", bytes "6"] ['i', '[', 'i']
        = (2, [ArgVal.iv 5, ArgVal.iv 6])
    ∧ (cmd_parse_args [] ['i', '[', 'i']).1 = SHELL_ERR_BAD_CMD
    ∧ (∀ (fmt : List Char) (ts : List (List Nat)) (vs : List ArgVal)
        (rem : List Char), parse_fields fmt ts = some (vs, rem) →
        ts.length < fmt_fields fmt →
        '[' ∈ rem.takeWhile is_bracket →
        cmd_parse_args ts fmt = ((ts.length : Int), vs))
    ∧ (∀ (fmt : List Char) (ts : List (List Nat)) (vs : List ArgVal)
        (rem : List Char), parse_fields fmt ts = some (vs, rem) →
        ts.length < fmt_fields fmt →
        '[' ∉ rem.takeWhile is_bracket →
        cmd_parse_args ts fmt = (SHELL_ERR_BAD_CMD, vs))
    ∧ (∀ (fmt : List Char) (ts extra : List (List Nat)) (vs : List ArgVal)
        (rem : List Char), parse_fields fmt ts = some (vs, rem) →
        fmt_fields fmt = ts.length → extra ≠ [] →
        cmd_parse_args (ts ++ extra) fmt = (SHELL_ERR_BAD_CMD, vs))
    ∧ (∀ (fmt : List Char) (ts : List (List Nat)) (vs : List ArgVal)
        (rem : List Char) (f : Char) (fm2 : List Char) (a : List Nat)
        (rest2 : List (List Nat)), parse_fields fmt ts = some (vs, rem) →
        rem.dropWhile is_bracket = f :: fm2 →
        a ≠ [] → parse_tok f a = none →
        cmd_parse_args (ts ++ a :: rest2) fmt = (SHELL_ERR_ARG, vs)) := by
  refine ⟨by decide, by decide, by decide, ?_, ?_, ?_, ?_⟩
  · intro fmt ts vs rem h hlt hmark
    have hm := cpa_go_parse_fields ts fmt vs rem [] false 0 [] h
    rw [List.append_nil] at hm
    simp only [ite_self, List.nil_append, Nat.zero_add] at hm
    show cpa_go fmt ts false 0 [] = _
    rw [hm, cpa_go_empty_spec, if_pos (Or.inr (Or.inl hmark))]
  · intro fmt ts vs rem h hlt hmark
    have hm := cpa_go_parse_fields ts fmt vs rem [] false 0 [] h
    rw [List.append_nil] at hm
    simp only [ite_self, List.nil_append, Nat.zero_add] at hm
    have hcount := (parse_fields_count ts fmt vs rem h).1
    have hdw : rem.dropWhile is_bracket ≠ [] := by
      intro hcontra
      have h1 := fmt_fields_dropWhile rem
      rw [hcontra] at h1
      have h0 : fmt_fields ([] : List Char) = 0 := rfl
      omega
    show cpa_go fmt ts false 0 [] = _
    rw [hm, cpa_go_empty_spec, if_neg]
    simp only [not_or]
    exact ⟨by simp, hmark, hdw⟩
  · intro fmt ts extra vs rem h hall hx
    have hm := cpa_go_parse_fields ts fmt vs rem extra false 0 [] h
    simp only [ite_self, List.nil_append, Nat.zero_add] at hm
    have hcount := (parse_fields_count ts fmt vs rem h).1
    have hz : fmt_fields rem = 0 := by omega
    show cpa_go fmt (ts ++ extra) false 0 [] = _
    rw [hm, cpa_go_extra_tokens rem hz extra _ _ _ hx]
  · intro fmt ts vs rem f fm2 a rest2 h hdrop ha hv
    have hm := cpa_go_parse_fields ts fmt vs rem (a :: rest2) false 0 [] h
    simp only [ite_self, List.nil_append, Nat.zero_add] at hm
    show cpa_go fmt (ts ++ a :: rest2) false 0 [] = _
    rw [hm, cpa_go_field_none rem f fm2 hdrop a rest2 _ _ _ ha hv]

/-- Witness for C8's amended theorem: format "i[i" with the single token
"5" stops at the optional second field and returns the one parsed value. -/
theorem cmd_parse_args_spec_witness :
    parse_fields ['i', '[', 'i'] [bytes "5"]
        = some ([ArgVal.iv 5], ['[', 'i'])
    ∧ [bytes "5"].length < fmt_fields ['i', '[', 'i']
    ∧ '[' ∈ (['[', 'i'] : List Char).takeWhile is_bracket
    ∧ cmd_parse_args [bytes "5"] ['i', '[', 'i'] = (1, [ArgVal.iv 5]) := by
  refine ⟨by decide, by decide, by decide, ?_⟩
  exact cmd_parse_args_spec.2.2.2.1 ['i', '[', 'i'] [bytes "5"]
    [ArgVal.iv 5] ['[', 'i'] (by decide) (by decide) (by decide)

end ShellTM32
